import Mathlib

/-!
Shallow embedding of `src/build.py` from the pleroma-wiki static-site
generator.  The development models:

* `escape` — Python's `html.escape(s, quote=True)` (imported at line 3 of
  the source and used throughout `linkify`), written as a character-wise
  map, which agrees with the sequential `str.replace` implementation
  because `&` is replaced first and no later entity introduces a
  character that an earlier replacement step targets;
* `linkify` (source lines 22-47) — the title-linkification pass: the
  registry keys are sorted by length, descending and stable (Python's
  `sorted(key=len, reverse=True)`), compiled into an alternation of
  literal patterns, and the text is scanned once left to right by
  `re.finditer`; each match is rendered as an anchor (or as escaped
  text when its URL is falsy) and the gaps are escaped;
* `slugify` (source lines 12-17) and the registry construction of
  `build` (source lines 61-62).

Python strings are modelled as `List Char` (Python string indices are
character positions, matching list positions here).  A Python `dict` is
modelled as an association list whose lookup returns the first binding;
the dicts the source builds have distinct keys, and in the one place a
comprehension could collapse duplicate keys (`build`, line 61) the value
is a function of the key alone, so the association list presents the
same mapping.

The `re.finditer` scan over an alternation of literal alternatives is
modelled by `finditerGo`: at each position the first alternative (in
pattern order) that matches is taken; a non-empty match is consumed and
scanning resumes at its end; after a zero-width match the scanner
advances one position (CPython ≥ 3.7 behaviour — a zero-width
alternative can only be reached here when no longer alternative matches
at that position, because the keys are sorted by length, descending, so
the empty key, if present, is always the last alternative).  The scan
is written with explicit fuel `text.length + 1`; every step consumes
one unit of fuel and advances the position by at least one, so the fuel
runs out only at positions past the end of the text, where the scan
returns `[]` anyway — the fuelled function therefore computes exactly
the unbounded scan.
-/

/-- The character `&`. -/
def ampC : Char := '&'

/-- The character `<`. -/
def ltC : Char := '<'

/-- The character `>`. -/
def gtC : Char := '>'

/-- The double-quote character. -/
def quotC : Char := '"'

/-- The single-quote character (code point 39). -/
def aposC : Char := Char.ofNat 39

/-- Python `html.escape(·, quote=True)` on a single character: the five
special characters become entities, every other character is kept. -/
def escapeChar (c : Char) : List Char :=
  if c = ampC then "&amp;".toList
  else if c = ltC then "&lt;".toList
  else if c = gtC then "&gt;".toList
  else if c = quotC then "&quot;".toList
  else if c = aposC then "&#x27;".toList
  else [c]

/-- Python `html.escape(text, quote=True)`, character-wise. -/
def escape (s : List Char) : List Char :=
  (s.map escapeChar).flatten

/-- Whether a character is one of the five that `html.escape` rewrites. -/
def isSpecial (c : Char) : Bool :=
  if c = ampC then true
  else if c = ltC then true
  else if c = gtC then true
  else if c = quotC then true
  else if c = aposC then true
  else false

/-- A title registry: Python's `title_to_url` dict, as an association
list from title to URL. -/
abbrev Registry : Type := List (List Char × List Char)

/-- Python `dict.get`: the first binding of the key, if any. -/
def lookupReg : Registry → List Char → Option (List Char)
  | [], _ => none
  | (t, u) :: r, k => if t = k then some u else lookupReg r k

/-- The literal pattern `k` (one `re.escape`d alternative of the
alternation built at source line 32) matches at the start of `s`. -/
def litMatch : List Char → List Char → Bool
  | [], _ => true
  | _ :: _, [] => false
  | a :: ks, b :: ss => if a = b then litMatch ks ss else false

/-- Insert a key into a length-descending list, after every key of
greater or equal length (keeps Python's stable sort order). -/
def insertDesc (k : List Char) : List (List Char) → List (List Char)
  | [] => [k]
  | x :: xs => if k.length ≤ x.length then x :: insertDesc k xs else k :: x :: xs

/-- Fold the input keys, left to right, into a length-descending list. -/
def sortPush : List (List Char) → List (List Char) → List (List Char)
  | acc, [] => acc
  | acc, k :: rest => sortPush (insertDesc k acc) rest

/-- Python `sorted(keys, key=len, reverse=True)`: stable sort by length,
descending (source line 28). -/
def sortByLenDesc (l : List (List Char)) : List (List Char) := sortPush [] l

/-- `keys` of source line 28: registry keys sorted by length, descending. -/
def keysOf (reg : Registry) : List (List Char) :=
  sortByLenDesc (reg.map Prod.fst)

/-- One `re.finditer` scan of `text` against the alternation of the
literal alternatives `keys`, starting at position `pos`: at each
position the first alternative that matches wins; a match is emitted
and scanning resumes after it (one position further for a zero-width
match).  `fuel = text.length + 1 - pos` always suffices, see the module
docstring. -/
def finditerGo (keys : List (List Char)) (text : List Char) :
    Nat → Nat → List (Nat × List Char)
  | 0, _ => []
  | fuel + 1, pos =>
    if text.length < pos then []
    else
      match keys.find? (fun k => litMatch k (text.drop pos)) with
      | none => finditerGo keys text fuel (pos + 1)
      | some k => (pos, k) :: finditerGo keys text fuel (pos + max k.length 1)

/-- The full match list of `pattern.finditer(text)` (source line 36). -/
def matchesOf (text : List Char) (reg : Registry) : List (Nat × List Char) :=
  finditerGo (keysOf reg) text (text.length + 1) 0

/-- The f-string of source line 41:
`f'<a href="{url}">{escape(k)}</a>'` — the URL is interpolated raw, the
matched title is escaped. -/
def anchorHtml (url k : List Char) : List Char :=
  "<a href=\"".toList ++ url ++ "\">".toList ++ escape k ++ "</a>".toList

/-- Source lines 38-43: look the matched key up with `dict.get`; a
truthy (non-empty) URL yields an anchor, otherwise the escaped title. -/
def renderKey (reg : Registry) (k : List Char) : List Char :=
  match lookupReg reg k with
  | some url => if url = [] then escape k else anchorHtml url k
  | none => escape k

/-- The loop of source lines 34-46: for each match, append the escaped
gap since `last`, then the rendered match, finally the escaped tail. -/
def emitLoop (reg : Registry) (text : List Char) :
    List (Nat × List Char) → Nat → List (List Char)
  | [], last => [escape (text.drop last)]
  | (p, k) :: ms, last =>
      escape ((text.drop last).take (p - last)) ::
        renderKey reg k :: emitLoop reg text ms (p + k.length)

/-- `linkify(text, title_to_url)`, source lines 22-47. -/
def linkify (text : List Char) (title_to_url : Registry) : List Char :=
  if keysOf title_to_url = [] then escape text
  else (emitLoop title_to_url text (matchesOf text title_to_url) 0).flatten

/-- A segment of the one left-to-right split `linkify` performs on the
original text: either a literal gap or a matched title. -/
inductive Seg : Type
  | lit : List Char → Seg
  | key : List Char → Seg
deriving DecidableEq

/-- The raw source characters a segment covers. -/
def srcSeg : Seg → List Char
  | Seg.lit s => s
  | Seg.key k => k

/-- How `linkify` renders a segment: gaps are escaped, matched titles go
through `renderKey`. -/
def renderSeg (reg : Registry) : Seg → List Char
  | Seg.lit s => escape s
  | Seg.key k => renderKey reg k

/-- A segment with any anchor replaced by its inner text: matched titles
contribute exactly their escaped text. -/
def stripSeg : Seg → List Char
  | Seg.lit s => escape s
  | Seg.key k => escape k

/-- The segments of the split induced by a match list, mirroring the
bookkeeping of `emitLoop`. -/
def emitSegs (text : List Char) : List (Nat × List Char) → Nat → List Seg
  | [], last => [Seg.lit (text.drop last)]
  | (p, k) :: ms, last =>
      Seg.lit ((text.drop last).take (p - last)) ::
        Seg.key k :: emitSegs text ms (p + k.length)

/-- The segments of the split `linkify` performs on `text`. -/
def segs (text : List Char) (reg : Registry) : List Seg :=
  emitSegs text (matchesOf text reg) 0

/-- Whether the pattern `pat` occurs contiguously anywhere inside `s`. -/
def hasSub (pat : List Char) : List Char → Bool
  | [] => litMatch pat []
  | c :: rest => if litMatch pat (c :: rest) then true else hasSub pat rest

/-- Python `\s` on the ASCII range (the titles the source handles are
Chinese and Latin text; the exotic Unicode spaces `\s` also covers never
reach `slugify` and are omitted): space, tab, newline, carriage return,
vertical tab, form feed. -/
def isPySpace (c : Char) : Bool :=
  if c = ' ' then true
  else if c = Char.ofNat 9 then true
  else if c = Char.ofNat 10 then true
  else if c = Char.ofNat 13 then true
  else if c = Char.ofNat 11 then true
  else if c = Char.ofNat 12 then true
  else false

/-- The character class of source line 15, `[\/\\\?\#\%\:\|\"<>\.]`. -/
def isDangerous (c : Char) : Bool :=
  if c = '/' then true
  else if c = '\\' then true
  else if c = '?' then true
  else if c = '#' then true
  else if c = '%' then true
  else if c = ':' then true
  else if c = '|' then true
  else if c = quotC then true
  else if c = ltC then true
  else if c = gtC then true
  else if c = '.' then true
  else false

/-- Python `str.strip()` (source line 14), over `isPySpace`. -/
def stripWs (s : List Char) : List Char :=
  ((s.dropWhile isPySpace).reverse.dropWhile isPySpace).reverse

/-- `re.sub(r"\s+", "-", ·)` (source line 16): every maximal whitespace
run becomes a single dash.  The flag records whether the previous
character was whitespace. -/
def collapseWsGo : Bool → List Char → List Char
  | _, [] => []
  | prevWs, c :: rest =>
    if isPySpace c then
      (if prevWs then [] else ['-']) ++ collapseWsGo true rest
    else c :: collapseWsGo false rest

/-- `slugify(title)`, source lines 12-17: strip, drop dangerous
characters, collapse whitespace runs to dashes. -/
def slugify (title : List Char) : List Char :=
  collapseWsGo false ((stripWs title).filter fun c => ! isDangerous c)

/-- The registry construction of `build`, source lines 61-62:
`title_to_slug = {e["title"]: slugify(e["title"]) for e in entries}` and
`title_to_url = {t: f"/pages/{s}/" for t, s in title_to_slug.items()}`,
as a function of the entry titles.  No entry is rejected or filtered. -/
def title_to_url (titles : List (List Char)) : Registry :=
  titles.map fun t => (t, "/pages/".toList ++ slugify t ++ "/".toList)

theorem escape_nil : escape [] = [] := rfl

theorem escape_cons (c : Char) (s : List Char) :
    escape (c :: s) = escapeChar c ++ escape s := rfl

theorem escape_append (a b : List Char) :
    escape (a ++ b) = escape a ++ escape b := by
  simp [escape]

theorem litMatch_iff (k s : List Char) :
    litMatch k s = true ↔ ∃ t, s = k ++ t := by
  induction k generalizing s with
  | nil => simp [litMatch]
  | cons a ks ih =>
    cases s with
    | nil =>
      simp only [litMatch, List.cons_append]
      constructor
      · intro h; exact absurd h (by simp)
      · rintro ⟨t, h⟩; exact absurd h (by simp)
    | cons b ss =>
      by_cases hab : a = b
      · subst hab
        simp [litMatch, ih]
      · simp only [litMatch, if_neg hab, List.cons_append]
        constructor
        · intro h; exact absurd h (by simp)
        · rintro ⟨t, h⟩
          exact absurd (List.cons.injEq _ _ _ _ ▸ h).1.symm hab

theorem litMatch_drop {k text : List Char} {pos : Nat}
    (h : litMatch k (text.drop pos) = true) :
    text.drop pos = k ++ text.drop (pos + k.length) := by
  rcases (litMatch_iff _ _).mp h with ⟨t, ht⟩
  have h2 : text.drop (pos + k.length) = t := by
    rw [← List.drop_drop k.length pos text, ht, List.drop_left]
  rw [h2, ht]

theorem gap_take_drop {text : List Char} {last p : Nat} (h : last ≤ p) :
    (text.drop last).take (p - last) ++ text.drop p = text.drop last := by
  have h2 : (text.drop last).drop (p - last) = text.drop p := by
    rw [List.drop_drop]; congr 1; omega
  conv_rhs => rw [← List.take_append_drop (p - last) (text.drop last)]
  rw [h2]

theorem special_notMem_escapeChar (c x : Char)
    (hx : x = ltC ∨ x = gtC ∨ x = quotC ∨ x = aposC) :
    x ∉ escapeChar c := by
  unfold escapeChar
  split_ifs with h1 h2 h3 h4 h5
  · rcases hx with rfl | rfl | rfl | rfl <;> decide
  · rcases hx with rfl | rfl | rfl | rfl <;> decide
  · rcases hx with rfl | rfl | rfl | rfl <;> decide
  · rcases hx with rfl | rfl | rfl | rfl <;> decide
  · rcases hx with rfl | rfl | rfl | rfl <;> decide
  · simp only [List.mem_singleton]
    rintro rfl
    rcases hx with rfl | rfl | rfl | rfl
    · exact h2 rfl
    · exact h3 rfl
    · exact h4 rfl
    · exact h5 rfl

theorem special_notMem_escape (x : Char)
    (hx : x = ltC ∨ x = gtC ∨ x = quotC ∨ x = aposC) :
    ∀ s : List Char, x ∉ escape s := by
  intro s
  induction s with
  | nil => simp [escape]
  | cons c cs ih =>
    rw [escape_cons]
    intro hmem
    rcases List.mem_append.mp hmem with h | h
    · exact special_notMem_escapeChar c x hx h
    · exact ih h

theorem count_amp_escapeChar (c : Char) :
    (escapeChar c).count ampC = if isSpecial c then 1 else 0 := by
  by_cases h1 : c = ampC
  · subst h1; decide
  · by_cases h2 : c = ltC
    · subst h2; decide
    · by_cases h3 : c = gtC
      · subst h3; decide
      · by_cases h4 : c = quotC
        · subst h4; decide
        · by_cases h5 : c = aposC
          · subst h5; decide
          · have hs : isSpecial c = false := by
              unfold isSpecial
              rw [if_neg h1, if_neg h2, if_neg h3, if_neg h4, if_neg h5]
            unfold escapeChar
            rw [if_neg h1, if_neg h2, if_neg h3, if_neg h4, if_neg h5, hs]
            simp [List.count_cons, beq_eq_false_iff_ne.mpr h1]

theorem count_amp_escape (s : List Char) :
    (escape s).count ampC = s.countP isSpecial := by
  induction s with
  | nil => rfl
  | cons c cs ih =>
    rw [escape_cons, List.count_append, ih, List.countP_cons, count_amp_escapeChar]
    split_ifs <;> omega

theorem mem_insertDesc {x k : List Char} {l : List (List Char)} :
    x ∈ insertDesc k l ↔ x = k ∨ x ∈ l := by
  induction l with
  | nil => simp [insertDesc]
  | cons y ys ih =>
    by_cases h : k.length ≤ y.length
    · rw [insertDesc, if_pos h, List.mem_cons, List.mem_cons, ih]
      tauto
    · rw [insertDesc, if_neg h]
      exact List.mem_cons

theorem mem_sortPush {x : List Char} :
    ∀ (l acc : List (List Char)), x ∈ sortPush acc l ↔ x ∈ acc ∨ x ∈ l := by
  intro l
  induction l with
  | nil => intro acc; simp [sortPush]
  | cons k rest ih =>
    intro acc
    simp only [sortPush, ih, mem_insertDesc, List.mem_cons]
    tauto

theorem mem_sortByLenDesc {x : List Char} {l : List (List Char)} :
    x ∈ sortByLenDesc l ↔ x ∈ l := by
  rw [sortByLenDesc, mem_sortPush]
  simp

/-- The descending-length order the sorted key list satisfies. -/
def lenGE (a b : List Char) : Prop := b.length ≤ a.length

theorem pairwise_insertDesc {k : List Char} {l : List (List Char)}
    (h : l.Pairwise lenGE) : (insertDesc k l).Pairwise lenGE := by
  induction l with
  | nil => simp [insertDesc]
  | cons y ys ih =>
    rcases List.pairwise_cons.mp h with ⟨hy, hys⟩
    by_cases hk : k.length ≤ y.length
    · rw [insertDesc, if_pos hk]
      refine List.pairwise_cons.mpr ⟨?_, ih hys⟩
      intro z hz
      rcases mem_insertDesc.mp hz with rfl | hz'
      · exact hk
      · exact hy z hz'
    · rw [insertDesc, if_neg hk]
      refine List.pairwise_cons.mpr ⟨?_, List.pairwise_cons.mpr ⟨hy, hys⟩⟩
      intro z hz
      rcases List.mem_cons.mp hz with rfl | hz'
      · exact le_of_lt (Nat.lt_of_not_le hk)
      · exact le_trans (hy z hz') (le_of_lt (Nat.lt_of_not_le hk))

theorem pairwise_sortPush :
    ∀ (l acc : List (List Char)), acc.Pairwise lenGE →
      (sortPush acc l).Pairwise lenGE := by
  intro l
  induction l with
  | nil => intro acc h; exact h
  | cons k rest ih =>
    intro acc h
    exact ih _ (pairwise_insertDesc h)

theorem pairwise_sortByLenDesc (l : List (List Char)) :
    (sortByLenDesc l).Pairwise lenGE :=
  pairwise_sortPush l [] List.Pairwise.nil

theorem find?_maxLen {p : List Char → Bool} :
    ∀ {l : List (List Char)}, l.Pairwise lenGE → ∀ {k : List Char},
      l.find? p = some k → ∀ x ∈ l, p x = true → x.length ≤ k.length := by
  intro l
  induction l with
  | nil => intro _ k hf; simp at hf
  | cons y ys ih =>
    intro hp k hf x hx hpx
    rcases List.pairwise_cons.mp hp with ⟨hy, hys⟩
    by_cases hpy : p y = true
    · rw [List.find?_cons_of_pos _ hpy] at hf
      cases hf
      rcases List.mem_cons.mp hx with rfl | hx'
      · exact le_refl _
      · exact hy x hx'
    · rw [List.find?_cons_of_neg _ (by simp [hpy])] at hf
      rcases List.mem_cons.mp hx with rfl | hx'
      · exact absurd hpx hpy
      · exact ih hys hf x hx' hpx

theorem finditerGo_nilKeys (text : List Char) :
    ∀ fuel pos, finditerGo [] text fuel pos = [] := by
  intro fuel
  induction fuel with
  | zero => intro pos; rfl
  | succ n ih =>
    intro pos
    rw [finditerGo]
    by_cases h : text.length < pos
    · rw [if_pos h]
    · rw [if_neg h]
      simp only [List.find?_nil]
      exact ih (pos + 1)

theorem finditerGo_mem (keys : List (List Char)) (text : List Char) :
    ∀ fuel pos p k, (p, k) ∈ finditerGo keys text fuel pos →
      pos ≤ p ∧ p ≤ text.length ∧ k ∈ keys ∧ litMatch k (text.drop p) = true := by
  intro fuel
  induction fuel with
  | zero => intro pos p k h; simp [finditerGo] at h
  | succ n ih =>
    intro pos p k h
    rw [finditerGo] at h
    by_cases hlt : text.length < pos
    · rw [if_pos hlt] at h; simp at h
    · rw [if_neg hlt] at h
      cases hf : keys.find? (fun k0 => litMatch k0 (text.drop pos)) with
      | none =>
        rw [hf] at h
        have hrec := ih (pos + 1) p k h
        exact ⟨by omega, hrec.2⟩
      | some k0 =>
        rw [hf] at h
        rcases List.mem_cons.mp h with heq | h'
        · have hp : p = pos := congrArg Prod.fst heq
          have hk : k = k0 := congrArg Prod.snd heq
          subst hp; subst hk
          have hm := List.find?_some hf
          exact ⟨le_refl _, by omega, List.mem_of_find?_eq_some hf, hm⟩
        · have hrec := ih (pos + max k0.length 1) p k h'
          exact ⟨by omega, hrec.2⟩

theorem finditerGo_chosen (keys : List (List Char)) (text : List Char) :
    ∀ fuel pos p k, (p, k) ∈ finditerGo keys text fuel pos →
      keys.find? (fun k0 => litMatch k0 (text.drop p)) = some k := by
  intro fuel
  induction fuel with
  | zero => intro pos p k h; simp [finditerGo] at h
  | succ n ih =>
    intro pos p k h
    rw [finditerGo] at h
    by_cases hlt : text.length < pos
    · rw [if_pos hlt] at h; simp at h
    · rw [if_neg hlt] at h
      cases hf : keys.find? (fun k0 => litMatch k0 (text.drop pos)) with
      | none =>
        rw [hf] at h
        exact ih (pos + 1) p k h
      | some k0 =>
        rw [hf] at h
        rcases List.mem_cons.mp h with heq | h'
        · have hp : p = pos := congrArg Prod.fst heq
          have hk : k = k0 := congrArg Prod.snd heq
          subst hp; subst hk
          exact hf
        · exact ih (pos + max k0.length 1) p k h'

theorem emitSegs_src (keys : List (List Char)) (text : List Char) :
    ∀ fuel pos last, last ≤ pos →
      ((emitSegs text (finditerGo keys text fuel pos) last).map srcSeg).flatten
        = text.drop last := by
  intro fuel
  induction fuel with
  | zero =>
    intro pos last _
    simp [finditerGo, emitSegs, srcSeg]
  | succ n ih =>
    intro pos last hle
    rw [finditerGo]
    by_cases hlt : text.length < pos
    · rw [if_pos hlt]; simp [emitSegs, srcSeg]
    · rw [if_neg hlt]
      cases hf : keys.find? (fun k0 => litMatch k0 (text.drop pos)) with
      | none => exact ih (pos + 1) last (by omega)
      | some k =>
        have hm0 := List.find?_some hf
        have hm : litMatch k (text.drop pos) = true := hm0
        have hdrop := litMatch_drop hm
        simp only [emitSegs, List.map_cons, List.flatten_cons, srcSeg]
        rw [ih (pos + max k.length 1) (pos + k.length) (by omega)]
        rw [← hdrop]
        exact gap_take_drop hle

theorem strip_eq_escape_src (l : List Seg) :
    (l.map stripSeg).flatten = escape ((l.map srcSeg).flatten) := by
  induction l with
  | nil => rfl
  | cons s rest ih =>
    cases s with
    | lit g => simp [stripSeg, srcSeg, escape_append, ih]
    | key k => simp [stripSeg, srcSeg, escape_append, ih]

theorem emitLoop_eq (reg : Registry) (text : List Char) :
    ∀ ms last, emitLoop reg text ms last
      = (emitSegs text ms last).map (renderSeg reg) := by
  intro ms
  induction ms with
  | nil => intro last; rfl
  | cons m rest ih =>
    rcases m with ⟨p, k⟩
    intro last
    simp [emitLoop, emitSegs, renderSeg, ih]

theorem linkify_eq_segs (text : List Char) (reg : Registry) :
    linkify text reg = ((segs text reg).map (renderSeg reg)).flatten := by
  by_cases h : keysOf reg = []
  · rw [linkify, if_pos h]
    rw [segs, matchesOf, h, finditerGo_nilKeys]
    simp [emitSegs, renderSeg]
  · rw [linkify, if_neg h, segs, matchesOf, emitLoop_eq]

theorem segs_src (text : List Char) (reg : Registry) :
    ((segs text reg).map srcSeg).flatten = text := by
  rw [segs, matchesOf]
  have := emitSegs_src (keysOf reg) text (text.length + 1) 0 0 (le_refl 0)
  rw [this, List.drop_zero]

theorem segs_strip (text : List Char) (reg : Registry) :
    ((segs text reg).map stripSeg).flatten = escape text := by
  rw [strip_eq_escape_src, segs_src]

theorem lookupReg_mem {reg : Registry} {k u : List Char}
    (h : lookupReg reg k = some u) : k ∈ reg.map Prod.fst := by
  induction reg with
  | nil => simp [lookupReg] at h
  | cons b r ih =>
    rcases b with ⟨t, v⟩
    by_cases ht : t = k
    · subst ht; simp
    · rw [lookupReg, if_neg ht] at h
      simp only [List.map_cons, List.mem_cons]
      exact Or.inr (ih h)

theorem hasSub_head_notMem {c : Char} {p : List Char} :
    ∀ {s : List Char}, c ∉ s → hasSub (c :: p) s = false := by
  intro s
  induction s with
  | nil => intro _; rfl
  | cons b rest ih =>
    intro h
    have hb : ¬ c = b := fun hh => h (by rw [hh]; exact List.mem_cons_self b rest)
    have htail : c ∉ rest := fun hh => h (List.mem_cons_of_mem _ hh)
    have hlm : litMatch (c :: p) (b :: rest) = false := by
      rw [litMatch, if_neg hb]
    rw [hasSub, hlm]
    simp [ih htail]

theorem finditerGo_pastEnd (keys : List (List Char)) (text : List Char)
    (hne : ∀ k ∈ keys, k ≠ []) :
    ∀ fuel pos, text.length ≤ pos → finditerGo keys text fuel pos = [] := by
  intro fuel
  induction fuel with
  | zero => intro pos _; rfl
  | succ n ih =>
    intro pos hpos
    rw [finditerGo]
    by_cases hlt : text.length < pos
    · rw [if_pos hlt]
    · rw [if_neg hlt]
      have hdrop : text.drop pos = [] := List.drop_eq_nil_of_le hpos
      have hnone : keys.find? (fun k0 => litMatch k0 (text.drop pos)) = none := by
        rw [List.find?_eq_none]
        intro x hx hlmx
        have hlmx' : litMatch x (text.drop pos) = true := hlmx
        rcases (litMatch_iff x (text.drop pos)).mp hlmx' with ⟨t, htx⟩
        rw [hdrop] at htx
        have hx0 : x = [] := by
          cases x with
          | nil => rfl
          | cons a as => simp at htx
        exact hne x hx hx0
      rw [hnone]
      exact ih (pos + 1) (by omega)

/-- C3: the output of `linkify` is the concatenation of the rendered
segments of one left-to-right split of the original text; the raw
segment sources concatenate back to the whole original text (no
characters dropped or duplicated), and replacing every emitted anchor
by its inner text (the escaped matched title) yields exactly the
HTML-escape of the whole original text. -/
theorem c3_round_trip (text : List Char) (reg : Registry) :
    linkify text reg = ((segs text reg).map (renderSeg reg)).flatten
      ∧ ((segs text reg).map srcSeg).flatten = text
      ∧ ((segs text reg).map stripSeg).flatten = escape text :=
  ⟨linkify_eq_segs text reg, segs_src text reg, segs_strip text reg⟩

/-- C2: `linkify` output is the concatenation of rendered segments; each
matched-title segment renders either as an anchor whose visible inner
text is exactly the escaped matched title, or as plain escaped text,
and the escaped title never contains the two-character sequence that
opens an anchor tag — so no anchor's inner text contains another
anchor, and text inside a matched span is never linked a second time. -/
theorem c2_no_nested_anchors (text : List Char) (reg : Registry) :
    linkify text reg = ((segs text reg).map (renderSeg reg)).flatten
      ∧ ∀ k, Seg.key k ∈ segs text reg →
          ((∃ u, lookupReg reg k = some u ∧ u ≠ [] ∧
              renderSeg reg (Seg.key k) = anchorHtml u k)
            ∨ renderSeg reg (Seg.key k) = escape k)
          ∧ hasSub "<a".toList (escape k) = false := by
  refine ⟨linkify_eq_segs text reg, ?_⟩
  intro k _
  constructor
  · show (∃ u, lookupReg reg k = some u ∧ u ≠ [] ∧ renderKey reg k = anchorHtml u k)
      ∨ renderKey reg k = escape k
    unfold renderKey
    cases hlk : lookupReg reg k with
    | none => exact Or.inr rfl
    | some u =>
      by_cases hu : u = []
      · exact Or.inr (if_pos hu)
      · exact Or.inl ⟨u, rfl, hu, if_neg hu⟩
  · exact hasSub_head_notMem (special_notMem_escape ltC (Or.inl rfl) k)

/-- C7: the output of `linkify` is built from one split of the raw text
(each raw character reaching `escape` exactly once, inside or outside a
matched span); `escape` turns each special character into its entity
exactly once — the ampersand count of the escaped text equals the
number of special source characters — and no raw `<`, `>`, double or
single quote survives escaping. -/
theorem c7_escape_once (text : List Char) (reg : Registry) :
    linkify text reg = ((segs text reg).map (renderSeg reg)).flatten
      ∧ ((segs text reg).map srcSeg).flatten = text
      ∧ (∀ s : List Char, (escape s).count ampC = s.countP isSpecial)
      ∧ (∀ s : List Char,
          ltC ∉ escape s ∧ gtC ∉ escape s ∧ quotC ∉ escape s ∧ aposC ∉ escape s) :=
  ⟨linkify_eq_segs text reg, segs_src text reg, count_amp_escape,
    fun s => ⟨special_notMem_escape ltC (Or.inl rfl) s,
      special_notMem_escape gtC (Or.inr (Or.inl rfl)) s,
      special_notMem_escape quotC (Or.inr (Or.inr (Or.inl rfl))) s,
      special_notMem_escape aposC (Or.inr (Or.inr (Or.inr rfl))) s⟩⟩

/-- C7 witness: the escape properties evaluated at concrete strings via
the claim theorem. -/
theorem c7_escape_once_witness :
    (escape "<&".toList).count ampC = ("<&".toList).countP isSpecial
      ∧ ltC ∉ escape "<a&b".toList :=
  ⟨(c7_escape_once [] []).2.2.1 "<&".toList,
    ((c7_escape_once [] []).2.2.2 "<a&b".toList).1⟩

/-- C2 witness: a concrete matched-title segment whose escaped title
contains no anchor opener, via the claim theorem. -/
theorem c2_no_nested_anchors_witness :
    Seg.key "A".toList ∈ segs "A".toList [("A".toList, "u".toList)]
      ∧ hasSub "<a".toList (escape "A".toList) = false := by
  refine ⟨by decide, ?_⟩
  exact ((c2_no_nested_anchors "A".toList [("A".toList, "u".toList)]).2
    "A".toList (by decide)).2

/-- C8: with an empty registry, `linkify` returns exactly the fully
HTML-escaped input text. -/
theorem c8_empty_registry (t : List Char) : linkify t [] = escape t := rfl

/-- C5: the worked example of the spec — registry
`{"Virgo": "/pages/virgo/", "Virtus": "/pages/virtus/"}` applied to
`"Virgo 與 Virtus 是兩個團體"` yields exactly the expected markup. -/
theorem c5_virgo_virtus :
    linkify "Virgo 與 Virtus 是兩個團體".toList
        [("Virgo".toList, "/pages/virgo/".toList),
          ("Virtus".toList, "/pages/virtus/".toList)]
      = "<a href=\"/pages/virgo/\">Virgo</a> 與 <a href=\"/pages/virtus/\">Virtus</a> 是兩個團體".toList := by
  decide

/-- C10: every matched title is rendered through `renderKey`: with a
falsy URL (missing binding or empty string) it becomes plain escaped
text that cannot contain an anchor (no `<` at all); an anchor is
produced exactly when the looked-up URL is non-empty. -/
theorem c10_falsy_url (text : List Char) (reg : Registry) :
    linkify text reg = ((segs text reg).map (renderSeg reg)).flatten
      ∧ ∀ k, Seg.key k ∈ segs text reg →
          ((lookupReg reg k = none ∨ lookupReg reg k = some []) →
              renderSeg reg (Seg.key k) = escape k
                ∧ ltC ∉ renderSeg reg (Seg.key k))
          ∧ (∀ u, lookupReg reg k = some u → u ≠ [] →
              renderSeg reg (Seg.key k) = anchorHtml u k) := by
  refine ⟨linkify_eq_segs text reg, ?_⟩
  intro k _
  constructor
  · intro hfalsy
    have hesc : renderKey reg k = escape k := by
      unfold renderKey
      rcases hfalsy with h | h
      · rw [h]
      · rw [h]
        exact if_pos rfl
    refine ⟨hesc, ?_⟩
    show ltC ∉ renderKey reg k
    rw [hesc]
    exact special_notMem_escape ltC (Or.inl rfl) k
  · intro u hu hune
    show renderKey reg k = anchorHtml u k
    unfold renderKey
    rw [hu]
    exact if_neg hune

/-- C10 witness: a matched title bound to the empty URL is emitted as
escaped text, via the claim theorem. -/
theorem c10_falsy_url_witness :
    Seg.key "A".toList ∈ segs "A".toList [("A".toList, [])]
      ∧ renderSeg [("A".toList, [])] (Seg.key "A".toList) = escape "A".toList := by
  refine ⟨by decide, ?_⟩
  exact (((c10_falsy_url "A".toList [("A".toList, [])]).2
    "A".toList (by decide)).1 (by decide)).1

/-- C4: with titles `A ↦ u1` and `AB ↦ u2` (u2 a destination URL, hence
truthy), linkifying the text `AB` produces the single anchor around
`AB` pointing to `u2` — never an anchor around `A` followed by an
escaped `B`. -/
theorem c4_longest_AB (u1 u2 : List Char) (h : u2 ≠ []) :
    linkify "AB".toList [("A".toList, u1), ("AB".toList, u2)]
      = "<a href=\"".toList ++ u2 ++ "\">AB</a>".toList := by
  have hlook : lookupReg [("A".toList, u1), ("AB".toList, u2)] "AB".toList
      = some u2 := by
    rw [lookupReg, if_neg (by decide), lookupReg, if_pos rfl]
  have hrk : renderKey [("A".toList, u1), ("AB".toList, u2)] "AB".toList
      = anchorHtml u2 "AB".toList := by
    unfold renderKey
    rw [hlook]
    exact if_neg h
  have hkeys : keysOf [("A".toList, u1), ("AB".toList, u2)]
      = ["AB".toList, "A".toList] := rfl
  have hm : matchesOf "AB".toList [("A".toList, u1), ("AB".toList, u2)]
      = [(0, "AB".toList)] := rfl
  unfold linkify
  rw [hkeys, if_neg (by decide), hm, emitLoop, emitLoop, hrk]
  show ([] : List Char) ++ (anchorHtml u2 "AB".toList ++ ([] ++ [])) = _
  rw [anchorHtml]
  simp
  decide

/-- C4 witness: the claim theorem applied at concrete URLs. -/
theorem c4_longest_AB_witness :
    ("u2".toList ≠ [])
      ∧ linkify "AB".toList [("A".toList, "u1".toList), ("AB".toList, "u2".toList)]
        = "<a href=\"".toList ++ "u2".toList ++ "\">AB</a>".toList :=
  ⟨by decide, c4_longest_AB "u1".toList "u2".toList (by decide)⟩

/-- C6: for a registry whose titles are all non-empty, if the text is
exactly a registry title `T` whose URL `u` is a destination URL (hence
truthy), `linkify` returns the single anchor `<a href="u">escape(T)</a>`
with no surrounding characters. -/
theorem c6_exact_title (R : Registry) (T u : List Char)
    (hkeys : ∀ t ∈ R.map Prod.fst, t ≠ [])
    (hlook : lookupReg R T = some u) (hu : u ≠ []) :
    linkify T R = anchorHtml u T := by
  have hTmem : T ∈ R.map Prod.fst := lookupReg_mem hlook
  have hTkeys : T ∈ keysOf R := by
    rw [keysOf, mem_sortByLenDesc]
    exact hTmem
  have hTne : T ≠ [] := hkeys T hTmem
  have hknil : keysOf R ≠ [] := List.ne_nil_of_mem hTkeys
  have hkeysNe : ∀ k ∈ keysOf R, k ≠ [] := by
    intro k hk
    rw [keysOf, mem_sortByLenDesc] at hk
    exact hkeys k hk
  have hTlen : 1 ≤ T.length := by
    cases T with
    | nil => exact absurd rfl hTne
    | cons a as => simp
  have hTmatch : litMatch T T = true := (litMatch_iff T T).mpr ⟨[], by simp⟩
  have hfind : (keysOf R).find? (fun k0 => litMatch k0 (T.drop 0)) = some T := by
    simp only [List.drop_zero]
    cases hf : (keysOf R).find? (fun k0 => litMatch k0 T) with
    | none =>
      exact absurd hTmatch (List.find?_eq_none.mp hf T hTkeys)
    | some k =>
      have hkm0 := List.find?_some hf
      have hkm : litMatch k T = true := hkm0
      have hmax : T.length ≤ k.length := by
        have hpw : (keysOf R).Pairwise lenGE := pairwise_sortByLenDesc (R.map Prod.fst)
        exact find?_maxLen hpw hf T hTkeys hTmatch
      rcases (litMatch_iff k T).mp hkm with ⟨t, ht⟩
      have hlen : k.length + t.length = T.length := by
        rw [ht, List.length_append]
      have ht0 : t = [] := List.length_eq_zero.mp (by omega)
      subst ht0
      rw [List.append_nil] at ht
      rw [← ht]
  have hfirst : finditerGo (keysOf R) T (T.length + 1) 0 = [(0, T)] := by
    rw [finditerGo, if_neg (by omega : ¬ T.length < 0), hfind]
    show (0, T) :: finditerGo (keysOf R) T T.length (0 + max T.length 1) = [(0, T)]
    have hmx : 0 + max T.length 1 = T.length := by omega
    rw [hmx, finditerGo_pastEnd (keysOf R) T hkeysNe T.length T.length (le_refl _)]
  have hrk : renderKey R T = anchorHtml u T := by
    unfold renderKey
    rw [hlook]
    exact if_neg hu
  unfold linkify
  rw [if_neg hknil, matchesOf, hfirst, emitLoop, emitLoop, hrk]
  have h1 : (T.drop 0).take (0 - 0) = [] := by simp
  have h2 : T.drop (0 + T.length) = [] := List.drop_eq_nil_of_le (by omega)
  rw [h1, h2, escape_nil]
  simp

/-- C6 witness: the claim theorem applied at a one-entry registry. -/
theorem c6_exact_title_witness :
    (∀ t ∈ ([("A".toList, "u".toList)] : Registry).map Prod.fst, t ≠ [])
      ∧ lookupReg [("A".toList, "u".toList)] "A".toList = some "u".toList
      ∧ "u".toList ≠ []
      ∧ linkify "A".toList [("A".toList, "u".toList)]
          = anchorHtml "u".toList "A".toList :=
  ⟨by decide, by decide, by decide,
    c6_exact_title [("A".toList, "u".toList)] "A".toList "u".toList
      (by decide) (by decide) (by decide)⟩

/-- C1 counterexample: with registry titles `XA ↦ u`, `BC ↦ v`,
`ABC ↦ w` and text `XABC`, the titles `BC` and `ABC` match at
overlapping positions (`ABC` at position 1, `BC` at position 2) and
`BC` is a substring of `ABC`, yet `linkify` links `XA` and then `BC`:
the longest overlapping title `ABC` is not linked at all, and the
shorter title `BC` consumes the characters `B` and `C` of the `ABC`
occurrence — refuting both parts of the claim. -/
theorem c1_counterexample :
    linkify "XABC".toList
        [("XA".toList, "u".toList), ("BC".toList, "v".toList),
          ("ABC".toList, "w".toList)]
      = "<a href=\"u\">XA</a><a href=\"v\">BC</a>".toList
    ∧ ("ABC".toList, "w".toList)
        ∈ ([("XA".toList, "u".toList), ("BC".toList, "v".toList),
            ("ABC".toList, "w".toList)] : Registry)
    ∧ litMatch "ABC".toList ("XABC".toList.drop 1) = true
    ∧ litMatch "BC".toList ("XABC".toList.drop 2) = true
    ∧ (∃ a b, "ABC".toList = a ++ "BC".toList ++ b)
    ∧ hasSub "<a href=\"w\">ABC</a>".toList
        (linkify "XABC".toList
          [("XA".toList, "u".toList), ("BC".toList, "v".toList),
            ("ABC".toList, "w".toList)]) = false
    ∧ hasSub "<a href=\"v\">BC</a>".toList
        (linkify "XABC".toList
          [("XA".toList, "u".toList), ("BC".toList, "v".toList),
            ("ABC".toList, "w".toList)]) = true :=
  ⟨by decide, by decide, by decide, by decide, ⟨"A".toList, [], by decide⟩,
    by decide, by decide⟩

/-- C1 amended: longest-match holds per scan position, not across
overlapping positions — for every match `(p, k)` the scan emits, every
registry title that matches at that same position `p` is no longer than
`k`; but scanning is leftmost-first, so once an earlier match is
consumed, a longer title matching at a later overlapping position can
lose to a shorter title, as the counterexample shows. -/
theorem c1_longest_at_position (text : List Char) (reg : Registry)
    (p : Nat) (k : List Char) (hm : (p, k) ∈ matchesOf text reg)
    (t : List Char) (ht : t ∈ reg.map Prod.fst)
    (hlm : litMatch t (text.drop p) = true) :
    t.length ≤ k.length := by
  have hchosen : (keysOf reg).find? (fun k0 => litMatch k0 (text.drop p)) = some k :=
    finditerGo_chosen (keysOf reg) text (text.length + 1) 0 p k hm
  have htk : t ∈ keysOf reg := by
    rw [keysOf, mem_sortByLenDesc]
    exact ht
  have hpw : (keysOf reg).Pairwise lenGE := pairwise_sortByLenDesc (reg.map Prod.fst)
  exact find?_maxLen hpw hchosen t htk hlm

/-- C1 amended witness: the amended theorem applied to the `A`/`AB`
registry at the single match of the text `AB`. -/
theorem c1_longest_at_position_witness :
    ((0, "AB".toList)
        ∈ matchesOf "AB".toList [("A".toList, "x".toList), ("AB".toList, "y".toList)])
      ∧ ("A".toList).length ≤ ("AB".toList).length :=
  ⟨by decide,
    c1_longest_at_position "AB".toList
      [("A".toList, "x".toList), ("AB".toList, "y".toList)]
      0 "AB".toList (by decide) "A".toList (by decide) (by decide)⟩

/-- C9 counterexample: `build` constructs the registry directly from
the entry titles with no rejection or filtering — an entry whose title
is the empty string yields an empty-string key in the registry passed
to `linkify`, mapped to `/pages//`. -/
theorem c9_counterexample :
    (([] : List Char), "/pages//".toList) ∈ title_to_url [[], "A".toList]
      ∧ lookupReg (title_to_url [[], "A".toList]) [] = some "/pages//".toList
      ∧ (title_to_url [[], "A".toList]).map Prod.fst = [[], "A".toList] := by
  decide

/-- C9 amended: the registry construction of `build` keeps every entry
title as a key unchanged (empty titles included); nothing is rejected
or filtered before the registry reaches `linkify`. -/
theorem c9_no_filtering (titles : List (List Char)) (t : List Char)
    (ht : t ∈ titles) :
    (t, "/pages/".toList ++ slugify t ++ "/".toList) ∈ title_to_url titles := by
  unfold title_to_url
  exact List.mem_map.mpr ⟨t, ht, rfl⟩

/-- C9 amended witness: the amended theorem applied to a list holding
one empty title. -/
theorem c9_no_filtering_witness :
    (([] : List Char) ∈ [([] : List Char)])
      ∧ (([] : List Char), "/pages/".toList ++ slugify [] ++ "/".toList)
          ∈ title_to_url [[]] :=
  ⟨by decide, c9_no_filtering [[]] [] (by decide)⟩
